import Mathlib

/-!
Shallow embedding of `src/lib.rs` (crate `mycollections`, type `MyVec<T>`).

A `MyVec<T>` is a triple of a length, a capacity and a backing buffer.  The
buffer is modelled as a total map from slot indices to `Option T`: `some x`
means the slot holds the initialized value `x`, `none` means the slot is
uninitialized memory (or lies outside the allocation).  Reads of uninitialized
slots, which are undefined behavior in the source, surface as `none` here.

Allocator traffic (needed for the claims about `Drop` and about zero-sized
types) is modelled separately by `reallocEvents` and `dropEvents`, which list
the allocator calls the corresponding source functions perform.
-/

/-- State of `MyVec<T>` from `src/lib.rs`: `len`, `capacity`, and the backing
buffer (`ptr`) modelled as a map from slot index to optional contents. -/
structure MyVec (T : Type) where
  len : Nat
  capacity : Nat
  mem : Nat → Option T

/-- `MyVec::new`: length 0, capacity 0, dangling (all-uninitialized) buffer. -/
def MyVec.new {T : Type} : MyVec T := ⟨0, 0, fun _ => none⟩

/-- `MyVec::realloc_with_capacity`: if the current capacity is 0 a fresh
(uninitialized) allocation is made, otherwise the buffer is reallocated,
preserving the bytes of the first `min old new` slots.  The stored capacity
becomes the requested one. -/
def MyVec.realloc_with_capacity {T : Type} (v : MyVec T) (c : Nat) : MyVec T :=
  if v.capacity = 0 then
    ⟨v.len, c, fun _ => none⟩
  else
    ⟨v.len, c, fun i => if i < min v.capacity c then v.mem i else none⟩

/-- Growth stage of `MyVec::push`: grow to capacity 1 if the capacity is 0,
double the capacity if the vector is full, otherwise leave it unchanged. -/
def MyVec.growForPush {T : Type} (v : MyVec T) : MyVec T :=
  if v.capacity = 0 then v.realloc_with_capacity 1
  else if v.capacity = v.len then v.realloc_with_capacity (v.capacity * 2)
  else v

/-- `MyVec::push`: run the growth stage, then write the value at index `len`
and increment `len`. -/
def MyVec.push {T : Type} (v : MyVec T) (x : T) : MyVec T :=
  let w := v.growForPush
  ⟨w.len + 1, w.capacity, fun i => if i = w.len then some x else w.mem i⟩

/-- `MyVec::pop`: `None` on an empty vector, otherwise decrement `len` and
move out the slot at the new `len`. -/
def MyVec.pop {T : Type} (v : MyVec T) : Option T × MyVec T :=
  if v.len = 0 then (none, v)
  else (v.mem (v.len - 1), ⟨v.len - 1, v.capacity, v.mem⟩)

/-- `MyVec::reserve`: grow to exactly `len + additional` when the capacity is
smaller than that, otherwise do nothing. -/
def MyVec.reserve {T : Type} (v : MyVec T) (additional : Nat) : MyVec T :=
  if v.capacity < v.len + additional then v.realloc_with_capacity (v.len + additional)
  else v

/-- `Index<usize> for MyVec`: unchecked read of slot `i` (uninitialized reads,
undefined behavior in the source, surface as `none`). -/
def MyVec.index {T : Type} (v : MyVec T) (i : Nat) : Option T := v.mem i

/-- `AsRef<[T]> for MyVec`: the slice view of the live region `[0, len)`. -/
def MyVec.asRef {T : Type} (v : MyVec T) : List (Option T) :=
  (List.range v.len).map v.mem

/-- A Rust iterator, reduced to what `extend` observes: the sequence of items
it will yield and the `size_hint` pair `(min, max)`. -/
structure MyIter (T : Type) where
  items : List T
  sizeHint : Nat × Option Nat

/-- Pushing a list of values one by one, in order. -/
def MyVec.pushList {T : Type} (v : MyVec T) (l : List T) : MyVec T :=
  l.foldl MyVec.push v

/-- `Extend<T> for MyVec`: reserve `max.unwrap_or(min)` from the size hint,
then push every item in sequence order. -/
def MyVec.extend {T : Type} (v : MyVec T) (it : MyIter T) : MyVec T :=
  (v.reserve ((it.sizeHint.2).getD it.sizeHint.1)).pushList it.items

/-- `FromIterator<T> for MyVec`: `Self::new()` followed by `extend`. -/
def MyVec.fromIter {T : Type} (it : MyIter T) : MyVec T :=
  MyVec.new.extend it

/-- `Default for MyVec`: `Self::new()`. -/
def MyVec.default {T : Type} : MyVec T := MyVec.new

/-- Popping `n` times in a row, collecting the returned values. -/
def MyVec.popN {T : Type} (v : MyVec T) : Nat → List (Option T) × MyVec T
  | 0 => ([], v)
  | n + 1 =>
    let p := v.pop
    let q := p.2.popN n
    (p.1 :: q.1, q.2)

/-- Element equality lifted to slots; comparing an uninitialized slot is
undefined behavior in the source and is mapped to `false`. -/
def eqbOpt {T : Type} (eqb : T → T → Bool) : Option T → Option T → Bool
  | some a, some b => eqb a b
  | _, _ => false

/-- Rust slice `==` on slot lists: equal lengths and pairwise element
equality. -/
def eqbSlice {T : Type} (eqb : T → T → Bool) : List (Option T) → List (Option T) → Bool
  | [], [] => true
  | a :: la, b :: lb => eqbOpt eqb a b && eqbSlice eqb la lb
  | _, _ => false

/-- Rust slice `==` on plain element lists. -/
def eqbListT {T : Type} (eqb : T → T → Bool) : List T → List T → Bool
  | [], [] => true
  | a :: la, b :: lb => eqb a b && eqbListT eqb la lb
  | _, _ => false

/-- `PartialEq<S> for MyVec`, compared against a plain sequence. -/
def MyVec.eqList {T : Type} (eqb : T → T → Bool) (v : MyVec T) (l : List T) : Bool :=
  eqbSlice eqb v.asRef (l.map some)

/-- `PartialEq<MyVec> for MyVec`: slice view against slice view. -/
def MyVec.eqVec {T : Type} (eqb : T → T → Bool) (a b : MyVec T) : Bool :=
  eqbSlice eqb a.asRef b.asRef

/-- Element comparison lifted to slots; an uninitialized operand yields
`none` (undefined behavior in the source). -/
def pcmpOpt {T : Type} (pc : T → T → Option Ordering) :
    Option T → Option T → Option Ordering
  | some a, some b => pc a b
  | _, _ => none

/-- Rust lexicographic slice `partial_cmp` on slot lists. -/
def pcmpSlice {T : Type} (pc : T → T → Option Ordering) :
    List (Option T) → List (Option T) → Option Ordering
  | [], [] => some .eq
  | [], _ :: _ => some .lt
  | _ :: _, [] => some .gt
  | a :: la, b :: lb =>
    match pcmpOpt pc a b with
    | some .eq => pcmpSlice pc la lb
    | o => o

/-- Rust lexicographic slice `partial_cmp` on plain element lists. -/
def pcmpListT {T : Type} (pc : T → T → Option Ordering) :
    List T → List T → Option Ordering
  | [], [] => some .eq
  | [], _ :: _ => some .lt
  | _ :: _, [] => some .gt
  | a :: la, b :: lb =>
    match pc a b with
    | some .eq => pcmpListT pc la lb
    | o => o

/-- `PartialOrd<MyVec> for MyVec`: slice view against slice view. -/
def MyVec.pcmpVec {T : Type} (pc : T → T → Option Ordering) (a b : MyVec T) :
    Option Ordering :=
  pcmpSlice pc a.asRef b.asRef

/-- Observable interactions of `MyVec` with the global allocator and with
element destructors. -/
inductive HeapEvent where
  | alloc (size : Nat)
  | realloc (oldSize newSize : Nat)
  | dealloc (size : Nat)
  | dropElem (idx : Nat)
deriving DecidableEq

/-- Allocator calls of `MyVec::realloc_with_capacity`, given the element byte
size, the current capacity and the requested capacity: `alloc` when the
current capacity is 0, `realloc` otherwise — unconditionally, with the sizes
the source computes. -/
def reallocEvents (elemSize selfCapacity newCapacity : Nat) : List HeapEvent :=
  if selfCapacity = 0 then [HeapEvent.alloc (newCapacity * elemSize)]
  else [HeapEvent.realloc (selfCapacity * elemSize) (newCapacity * elemSize)]

/-- Allocator calls and element destructor runs of `Drop for MyVec`: a single
`dealloc` of `capacity * size_of::<T>()` bytes when capacity is positive,
nothing otherwise. -/
def dropEvents {T : Type} (elemSize : Nat) (v : MyVec T) : List HeapEvent :=
  if 0 < v.capacity then [HeapEvent.dealloc (v.capacity * elemSize)] else []

/-- A single mutating container operation. -/
inductive MyOp (T : Type) where
  | push (x : T)
  | pop
  | reserve (n : Nat)

/-- Run one operation on a vector. -/
def MyVec.applyOp {T : Type} (v : MyVec T) : MyOp T → MyVec T
  | .push x => v.push x
  | .pop => (v.pop).2
  | .reserve n => v.reserve n

/-- Run a sequence of operations on a vector. -/
def MyVec.applyOps {T : Type} (v : MyVec T) (ops : List (MyOp T)) : MyVec T :=
  ops.foldl MyVec.applyOp v

/-- `Represents v l`: the vector `v` is a valid state holding exactly the
elements of `l` in order — length matches, the capacity is sufficient, and
every live slot holds the corresponding element. -/
def Represents {T : Type} (v : MyVec T) (l : List T) : Prop :=
  v.len = l.length ∧ l.length ≤ v.capacity ∧ ∀ i, i < l.length → v.mem i = l[i]?

lemma my_represents_new {T : Type} : Represents (MyVec.new : MyVec T) [] :=
  ⟨rfl, Nat.le_refl 0, fun i hi => absurd hi (by simp)⟩

lemma my_realloc_capacity {T : Type} (v : MyVec T) (c : Nat) :
    (v.realloc_with_capacity c).capacity = c := by
  unfold MyVec.realloc_with_capacity; split <;> rfl

lemma my_realloc_len {T : Type} (v : MyVec T) (c : Nat) :
    (v.realloc_with_capacity c).len = v.len := by
  unfold MyVec.realloc_with_capacity; split <;> rfl

lemma my_represents_realloc {T : Type} {v : MyVec T} {l : List T} (h : Represents v l)
    (c : Nat) (hc : l.length ≤ c) :
    Represents (v.realloc_with_capacity c) l := by
  obtain ⟨h1, h2, h3⟩ := h
  unfold MyVec.realloc_with_capacity
  by_cases hv : v.capacity = 0
  · rw [if_pos hv]
    have hl : l.length = 0 := by omega
    exact ⟨h1, by omega, fun i hi => by omega⟩
  · rw [if_neg hv]
    refine ⟨h1, hc, fun i hi => ?_⟩
    have hmin : i < min v.capacity c := by omega
    show (if i < min v.capacity c then v.mem i else none) = l[i]?
    rw [if_pos hmin, h3 i hi]

lemma my_grow_represents {T : Type} {v : MyVec T} {l : List T} (h : Represents v l) :
    Represents v.growForPush l ∧ l.length < v.growForPush.capacity := by
  have h1 := h.1
  have h2 := h.2.1
  unfold MyVec.growForPush
  by_cases h0 : v.capacity = 0
  · rw [if_pos h0]
    refine ⟨my_represents_realloc h 1 (by omega), ?_⟩
    rw [my_realloc_capacity]; omega
  · rw [if_neg h0]
    by_cases hfull : v.capacity = v.len
    · rw [if_pos hfull]
      refine ⟨my_represents_realloc h (v.capacity * 2) (by omega), ?_⟩
      rw [my_realloc_capacity]; omega
    · rw [if_neg hfull]
      exact ⟨h, by omega⟩

lemma my_grow_len {T : Type} (v : MyVec T) : v.growForPush.len = v.len := by
  unfold MyVec.growForPush
  split
  · rw [my_realloc_len]
  split
  · rw [my_realloc_len]
  · rfl

lemma my_represents_push {T : Type} {v : MyVec T} {l : List T} (h : Represents v l) (x : T) :
    Represents (v.push x) (l ++ [x]) := by
  obtain ⟨hw, hlt⟩ := my_grow_represents h
  obtain ⟨w1, w2, w3⟩ := hw
  refine ⟨?_, ?_, ?_⟩
  · show v.growForPush.len + 1 = (l ++ [x]).length
    simp [w1]
  · show (l ++ [x]).length ≤ v.growForPush.capacity
    simp only [List.length_append, List.length_cons, List.length_nil]
    omega
  · intro i hi
    show (if i = v.growForPush.len then some x else v.growForPush.mem i) = (l ++ [x])[i]?
    by_cases hiw : i = v.growForPush.len
    · rw [if_pos hiw]
      have hieq : i = l.length := by omega
      rw [hieq, List.getElem?_concat_length]
    · rw [if_neg hiw]
      have hil : i < l.length := by
        simp only [List.length_append, List.length_cons, List.length_nil] at hi
        omega
      rw [w3 i hil, List.getElem?_append_left hil]

lemma my_represents_pushList {T : Type} :
    ∀ (l2 : List T) {v : MyVec T} {l : List T}, Represents v l →
      Represents (v.pushList l2) (l ++ l2) := by
  intro l2
  induction l2 with
  | nil => intro v l h; simpa [MyVec.pushList] using h
  | cons a l2 ih =>
    intro v l h
    have step : v.pushList (a :: l2) = (v.push a).pushList l2 := rfl
    rw [step]
    have := ih (my_represents_push h a)
    simpa [List.append_assoc] using this

lemma my_asRef_eq {T : Type} {v : MyVec T} {l : List T} (h : Represents v l) :
    v.asRef = l.map some := by
  obtain ⟨h1, h2, h3⟩ := h
  apply List.ext_getElem?
  intro i
  simp only [MyVec.asRef, List.getElem?_map]
  by_cases hi : i < l.length
  · rw [List.getElem?_range (h1 ▸ hi)]
    simp only [Option.map_some']
    rw [h3 i hi, List.getElem?_eq_getElem hi]
    rfl
  · have hrange : (List.range v.len)[i]? = none := by
      rw [List.getElem?_eq_none_iff]
      simp [h1]; omega
    have hl : l[i]? = none := by
      rw [List.getElem?_eq_none_iff]; omega
    rw [hrange, hl]
    rfl

lemma my_pop_last {T : Type} {v : MyVec T} {l : List T} {x : T}
    (h : Represents v (l ++ [x])) :
    v.pop = (some x, ⟨l.length, v.capacity, v.mem⟩) ∧ Represents v.pop.2 l := by
  obtain ⟨h1, h2, h3⟩ := h
  have hlen : v.len = l.length + 1 := by simpa using h1
  have hne : ¬ v.len = 0 := by omega
  have hmem : v.mem l.length = some x := by
    have hx := h3 l.length (by simp)
    rwa [List.getElem?_concat_length] at hx
  have hpop : v.pop = (some x, ⟨l.length, v.capacity, v.mem⟩) := by
    unfold MyVec.pop
    rw [if_neg hne]
    have e : v.len - 1 = l.length := by omega
    rw [e, hmem]
  refine ⟨hpop, ?_⟩
  have hv2 : v.pop.2 = (⟨l.length, v.capacity, v.mem⟩ : MyVec T) := by rw [hpop]
  rw [hv2]
  refine ⟨rfl, ?_, fun i hi => ?_⟩
  · show l.length ≤ v.capacity
    simp only [List.length_append, List.length_cons, List.length_nil] at h2
    omega
  · show v.mem i = l[i]?
    have hi2 : i < (l ++ [x]).length := by simp; omega
    rw [h3 i hi2, List.getElem?_append_left hi]

lemma my_popN_len_zero {T : Type} {v : MyVec T} (h : v.len = 0) :
    ∀ k, v.popN k = (List.replicate k none, v) := by
  intro k
  induction k with
  | zero => rfl
  | succ k ih =>
    have hp : v.pop = (none, v) := by unfold MyVec.pop; rw [if_pos h]
    show (v.pop.1 :: (v.pop.2.popN k).1, (v.pop.2.popN k).2) = _
    rw [hp]
    simp [ih, List.replicate_succ]

lemma my_popN_represents {T : Type} :
    ∀ (l : List T) (v : MyVec T), Represents v l →
      (v.popN l.length).1 = l.reverse.map some ∧
      (v.popN l.length).2.len = 0 ∧
      (v.popN l.length).2.capacity = v.capacity := by
  intro l
  induction l using List.reverseRecOn with
  | nil =>
    intro v h
    exact ⟨rfl, h.1, rfl⟩
  | append_singleton l x ih =>
    intro v h
    obtain ⟨hpop, hrep⟩ := my_pop_last h
    obtain ⟨ih1, ih2, ih3⟩ := ih _ hrep
    have hlen : (l ++ [x]).length = l.length + 1 := by simp
    rw [hlen]
    refine ⟨?_, ?_, ?_⟩
    · show v.pop.1 :: (v.pop.2.popN l.length).1 = (l ++ [x]).reverse.map some
      have hfst : v.pop.1 = some x := by rw [hpop]
      rw [hfst, ih1]
      simp
    · show (v.pop.2.popN l.length).2.len = 0
      exact ih2
    · show (v.pop.2.popN l.length).2.capacity = v.capacity
      rw [ih3, hpop]

lemma my_grow_capacity_le {T : Type} (v : MyVec T) : v.capacity ≤ v.growForPush.capacity := by
  unfold MyVec.growForPush
  split
  · rw [my_realloc_capacity]; omega
  split
  · rw [my_realloc_capacity]; omega
  · exact Nat.le_refl _

lemma my_push_capacity_le {T : Type} (v : MyVec T) (x : T) :
    v.capacity ≤ (v.push x).capacity := by
  show v.capacity ≤ v.growForPush.capacity
  exact my_grow_capacity_le v

lemma my_pop_capacity {T : Type} (v : MyVec T) : v.pop.2.capacity = v.capacity := by
  unfold MyVec.pop; split <;> rfl

lemma my_pop_mem {T : Type} (v : MyVec T) : v.pop.2.mem = v.mem := by
  unfold MyVec.pop; split <;> rfl

lemma my_reserve_capacity_le {T : Type} (v : MyVec T) (n : Nat) :
    v.capacity ≤ (v.reserve n).capacity := by
  unfold MyVec.reserve
  split
  · rw [my_realloc_capacity]; omega
  · exact Nat.le_refl _

lemma my_applyOp_capacity_le {T : Type} (v : MyVec T) (op : MyOp T) :
    v.capacity ≤ (v.applyOp op).capacity := by
  cases op with
  | push x => exact my_push_capacity_le v x
  | pop => rw [MyVec.applyOp, my_pop_capacity]
  | reserve n => exact my_reserve_capacity_le v n

lemma my_applyOps_capacity_le {T : Type} :
    ∀ (ops : List (MyOp T)) (v : MyVec T), v.capacity ≤ (v.applyOps ops).capacity := by
  intro ops
  induction ops with
  | nil => intro v; exact Nat.le_refl _
  | cons op ops ih =>
    intro v
    exact Nat.le_trans (my_applyOp_capacity_le v op) (ih (v.applyOp op))

lemma my_grow_room {T : Type} {v : MyVec T} (h : v.len ≤ v.capacity) :
    v.len < v.growForPush.capacity := by
  unfold MyVec.growForPush
  by_cases h0 : v.capacity = 0
  · rw [if_pos h0, my_realloc_capacity]; omega
  · rw [if_neg h0]
    by_cases hfull : v.capacity = v.len
    · rw [if_pos hfull, my_realloc_capacity]; omega
    · rw [if_neg hfull]; omega

lemma my_inv_push {T : Type} {v : MyVec T} (x : T) (h : v.len ≤ v.capacity) :
    (v.push x).len ≤ (v.push x).capacity := by
  show v.growForPush.len + 1 ≤ v.growForPush.capacity
  rw [my_grow_len]
  exact my_grow_room h

lemma my_inv_pop {T : Type} {v : MyVec T} (h : v.len ≤ v.capacity) :
    v.pop.2.len ≤ v.pop.2.capacity := by
  unfold MyVec.pop
  split
  · exact h
  · show v.len - 1 ≤ v.capacity
    omega

lemma my_inv_reserve {T : Type} {v : MyVec T} (n : Nat) (h : v.len ≤ v.capacity) :
    (v.reserve n).len ≤ (v.reserve n).capacity := by
  unfold MyVec.reserve
  split
  · rw [my_realloc_capacity, my_realloc_len]; omega
  · exact h

lemma my_inv_pushList {T : Type} :
    ∀ (l : List T) {v : MyVec T}, v.len ≤ v.capacity →
      (v.pushList l).len ≤ (v.pushList l).capacity := by
  intro l
  induction l with
  | nil => intro v h; exact h
  | cons a l ih =>
    intro v h
    exact ih (my_inv_push a h)

lemma my_inv_extend {T : Type} {v : MyVec T} (it : MyIter T) (h : v.len ≤ v.capacity) :
    (v.extend it).len ≤ (v.extend it).capacity := by
  unfold MyVec.extend
  exact my_inv_pushList it.items (my_inv_reserve _ h)

lemma my_reserve_spec {T : Type} {v : MyVec T} {l : List T} (n : Nat) (h : Represents v l) :
    Represents (v.reserve n) l ∧ (v.reserve n).len = v.len ∧
      v.len + n ≤ (v.reserve n).capacity := by
  unfold MyVec.reserve
  split
  · have h1 := h.1
    refine ⟨my_represents_realloc h (v.len + n) (by omega), ?_, ?_⟩
    · rw [my_realloc_len]
    · rw [my_realloc_capacity]
  · next hle => exact ⟨h, rfl, by omega⟩

lemma my_pushList_room {T : Type} :
    ∀ (l : List T) (v : MyVec T), v.len + l.length ≤ v.capacity →
      (v.pushList l).capacity = v.capacity ∧ (v.pushList l).len = v.len + l.length := by
  intro l
  induction l with
  | nil => intro v h; exact ⟨rfl, rfl⟩
  | cons a l ih =>
    intro v h
    have hlt : v.len < v.capacity := by
      simp only [List.length_cons] at h; omega
    have h0 : ¬ v.capacity = 0 := by omega
    have hfull : ¬ v.capacity = v.len := by omega
    have hg : v.growForPush = v := by
      unfold MyVec.growForPush; rw [if_neg h0, if_neg hfull]
    have hcap : (v.push a).capacity = v.capacity := by
      show v.growForPush.capacity = v.capacity
      rw [hg]
    have hlen : (v.push a).len = v.len + 1 := by
      show v.growForPush.len + 1 = v.len + 1
      rw [hg]
    have hroom : (v.push a).len + l.length ≤ (v.push a).capacity := by
      rw [hcap, hlen]
      simp only [List.length_cons] at h; omega
    have step : v.pushList (a :: l) = (v.push a).pushList l := rfl
    rw [step]
    obtain ⟨c1, c2⟩ := ih (v.push a) hroom
    refine ⟨by rw [c1, hcap], ?_⟩
    rw [c2, hlen]
    simp only [List.length_cons]
    omega

lemma my_extend_represents {T : Type} {v : MyVec T} {l : List T} (h : Represents v l)
    (it : MyIter T) : Represents (v.extend it) (l ++ it.items) := by
  unfold MyVec.extend
  exact my_represents_pushList it.items (my_reserve_spec _ h).1

lemma my_extend_capacity {T : Type} {v : MyVec T} {l : List T} (h : Represents v l)
    (it : MyIter T) (hb : it.items.length ≤ (it.sizeHint.2).getD it.sizeHint.1) :
    (v.extend it).capacity = (v.reserve ((it.sizeHint.2).getD it.sizeHint.1)).capacity := by
  unfold MyVec.extend
  obtain ⟨hr, hlen, hcap⟩ := my_reserve_spec ((it.sizeHint.2).getD it.sizeHint.1) h
  exact (my_pushList_room it.items _ (by omega)).1

lemma my_eqbSlice_map_some {T : Type} (eqb : T → T → Bool) :
    ∀ l1 l2 : List T, eqbSlice eqb (l1.map some) (l2.map some) = eqbListT eqb l1 l2 := by
  intro l1
  induction l1 with
  | nil => intro l2; cases l2 <;> rfl
  | cons a l1 ih =>
    intro l2
    cases l2 with
    | nil => rfl
    | cons b l2 =>
      show (eqbOpt eqb (some a) (some b) && eqbSlice eqb (l1.map some) (l2.map some)) = _
      rw [ih l2]
      rfl

lemma my_pcmpSlice_map_some {T : Type} (pc : T → T → Option Ordering) :
    ∀ l1 l2 : List T, pcmpSlice pc (l1.map some) (l2.map some) = pcmpListT pc l1 l2 := by
  intro l1
  induction l1 with
  | nil => intro l2; cases l2 <;> rfl
  | cons a l1 ih =>
    intro l2
    cases l2 with
    | nil => rfl
    | cons b l2 =>
      show (match pcmpOpt pc (some a) (some b) with
        | some .eq => pcmpSlice pc (l1.map some) (l2.map some)
        | o => o) = _
      have hred : pcmpOpt pc (some a) (some b) = pc a b := rfl
      rw [hred, ih l2]
      rfl

/-- C1: evaluating `Drop for MyVec` (modelled by `dropEvents`) at a state with
one live element (`len = 1`, `capacity = 1`, element byte size 8): the trace
is a single buffer deallocation and contains no element-destructor run, so the
live element is never destructed before the allocation is released. -/
theorem drop_releases_without_destructing_elements :
    dropEvents 8 (⟨1, 1, fun _ => some 0⟩ : MyVec Nat) = [HeapEvent.dealloc 8] ∧
    (dropEvents 8 (⟨1, 1, fun _ => some 0⟩ : MyVec Nat)).count (HeapEvent.dropElem 0) = 0 :=
  ⟨rfl, rfl⟩

/-- C2: the growth step of `MyVec::realloc_with_capacity` always performs
exactly one allocator call; in particular for a zero-sized element type
(element byte size 0, first growth from capacity 0 to 1) it requests an
allocation of 0 bytes instead of returning a no-allocation sentinel. -/
theorem zst_growth_still_calls_allocator :
    reallocEvents 0 0 1 = [HeapEvent.alloc 0] ∧
    ∀ elemSize selfCapacity newCapacity,
      (reallocEvents elemSize selfCapacity newCapacity).length = 1 := by
  refine ⟨rfl, ?_⟩
  intro es sc nc
  unfold reallocEvents
  split <;> rfl

/-- C3: pushing the values of `l` onto the empty vector and popping
`l.length` times returns them in reverse push order; every subsequent pop
returns `none` (the normal empty outcome) and leaves the state unchanged. -/
theorem push_pop_reverse_order {T : Type} (l : List T) :
    ((MyVec.new.pushList l).popN l.length).1 = l.reverse.map some ∧
    ∀ k, (((MyVec.new.pushList l).popN l.length).2.popN k).1 = List.replicate k none ∧
      (((MyVec.new.pushList l).popN l.length).2.popN k).2 =
        ((MyVec.new.pushList l).popN l.length).2 := by
  have hrep : Represents (MyVec.new.pushList l) l := by
    have := my_represents_pushList l my_represents_new
    simpa using this
  obtain ⟨h1, h2, _⟩ := my_popN_represents l _ hrep
  refine ⟨h1, fun k => ⟨?_, ?_⟩⟩ <;> rw [my_popN_len_zero h2 k]

/-- C4: after pushing the values of `l` onto the empty vector the length is
`l.length`, and under the precondition `i < l.length` the indexed read at `i`
returns the `i`-th pushed value. -/
theorem push_then_index_reads_back {T : Type} (l : List T) (i : Nat) (h : i < l.length) :
    (MyVec.new.pushList l).len = l.length ∧
    (MyVec.new.pushList l).index i = some l[i] := by
  have hrep : Represents (MyVec.new.pushList l) l := by
    have := my_represents_pushList l my_represents_new
    simpa using this
  refine ⟨hrep.1, ?_⟩
  show (MyVec.new.pushList l).mem i = some l[i]
  rw [hrep.2.2 i h, List.getElem?_eq_getElem h]

/-- Witness for C4 at `l = [5, 7]`, `i = 1`. -/
theorem push_then_index_reads_back_witness :
    (MyVec.new.pushList [5, 7] : MyVec Nat).len = 2 ∧
    (MyVec.new.pushList [5, 7] : MyVec Nat).index 1 = some 7 :=
  push_then_index_reads_back [5, 7] 1 (by decide)

/-- C5: capacity never decreases under any sequence of push/pop/reserve
operations; a push that triggers growth from nonzero capacity at least
doubles the capacity; the first push on capacity 0 produces capacity 1; and
pushing `1, 2, 3` onto the empty vector yields capacity 4. -/
theorem capacity_monotone_growth {T : Type} :
    (∀ (v : MyVec T) (ops : List (MyOp T)), v.capacity ≤ (v.applyOps ops).capacity) ∧
    (∀ (v : MyVec T) (x : T), v.capacity ≠ 0 → v.capacity = v.len →
      2 * v.capacity ≤ (v.push x).capacity) ∧
    (∀ (v : MyVec T) (x : T), v.capacity = 0 → (v.push x).capacity = 1) ∧
    ((MyVec.new.pushList [1, 2, 3] : MyVec Nat).capacity = 4) := by
  refine ⟨fun v ops => my_applyOps_capacity_le ops v, ?_, ?_, by decide⟩
  · intro v x h0 hfull
    show 2 * v.capacity ≤ v.growForPush.capacity
    unfold MyVec.growForPush
    rw [if_neg h0, if_pos hfull, my_realloc_capacity]
    omega
  · intro v x h0
    show v.growForPush.capacity = 1
    unfold MyVec.growForPush
    rw [if_pos h0, my_realloc_capacity]

/-- Witness for C5: the first push on the empty vector gives capacity 1. -/
theorem capacity_monotone_growth_witness :
    ((MyVec.new : MyVec Nat).push 9).capacity = 1 :=
  (@capacity_monotone_growth Nat).2.2.1 MyVec.new 9 rfl

/-- C6 counterexample: for the iterator with no upper bound (`size_hint =
(1, none)`) and no items, `extend` on the empty vector produces capacity 1,
while pushing its items individually leaves capacity 0 — so `extend` with no
upper bound does not fall back to ordinary incremental push behavior. -/
theorem extend_no_bound_not_plain_pushes :
    ((MyVec.new : MyVec Nat).extend ⟨[], (1, none)⟩).capacity = 1 ∧
    ((MyVec.new : MyVec Nat).pushList []).capacity = 0 := by
  exact ⟨rfl, rfl⟩

/-- C6 amended: `extend` appends the items in order after a single up-front
`reserve` of `max.unwrap_or(min)` from the size hint: when an upper bound
`max` is reported it reserves `max` slots, and when no upper bound is
available it reserves the reported lower bound `min` instead (not ordinary
incremental push behavior); when the hint bounds the item count the pushes
cause no further reallocation, so the final capacity is the one produced by
the up-front reservation. -/
theorem extend_reserves_hint_then_pushes {T : Type} (v : MyVec T) (it : MyIter T)
    (l : List T) (h : Represents v l) :
    Represents (v.extend it) (l ++ it.items) ∧
    (∀ mx, it.sizeHint.2 = some mx → v.extend it = (v.reserve mx).pushList it.items) ∧
    (it.sizeHint.2 = none → v.extend it = (v.reserve it.sizeHint.1).pushList it.items) ∧
    (it.items.length ≤ (it.sizeHint.2).getD it.sizeHint.1 →
      (v.extend it).capacity = (v.reserve ((it.sizeHint.2).getD it.sizeHint.1)).capacity) := by
  refine ⟨my_extend_represents h it, ?_, ?_, my_extend_capacity h it⟩
  · intro mx hmx
    unfold MyVec.extend
    rw [hmx]
    rfl
  · intro hnone
    unfold MyVec.extend
    rw [hnone]
    rfl

/-- Witness for C6 at the empty vector and the iterator `([4], (1, some 1))`. -/
theorem extend_reserves_hint_then_pushes_witness :
    ((MyVec.new : MyVec Nat).extend ⟨[4], (1, some 1)⟩).capacity =
      ((MyVec.new : MyVec Nat).reserve 1).capacity :=
  (extend_reserves_hint_then_pushes MyVec.new ⟨[4], (1, some 1)⟩ []
    my_represents_new).2.2.2 (by decide)

/-- C7: building from any finite sequence yields a slice view equal to that
sequence (round-trip law), and the equality/ordering comparisons between a
built container and a plain sequence, or between two built containers, agree
with comparing the underlying sequences. -/
theorem fromIter_roundtrip_and_compare {T : Type} (eqb : T → T → Bool)
    (pc : T → T → Option Ordering) (it it1 it2 : MyIter T) (l2 : List T) :
    (MyVec.fromIter it).asRef = it.items.map some ∧
    MyVec.eqList eqb (MyVec.fromIter it1) l2 = eqbListT eqb it1.items l2 ∧
    MyVec.eqVec eqb (MyVec.fromIter it1) (MyVec.fromIter it2) =
      eqbListT eqb it1.items it2.items ∧
    MyVec.pcmpVec pc (MyVec.fromIter it1) (MyVec.fromIter it2) =
      pcmpListT pc it1.items it2.items := by
  have hrep : ∀ j : MyIter T, Represents (MyVec.fromIter j) j.items := by
    intro j
    have := my_extend_represents my_represents_new j
    simpa [MyVec.fromIter] using this
  have hAs : ∀ j : MyIter T, (MyVec.fromIter j).asRef = j.items.map some :=
    fun j => my_asRef_eq (hrep j)
  refine ⟨hAs it, ?_, ?_, ?_⟩
  · unfold MyVec.eqList
    rw [hAs it1, my_eqbSlice_map_some]
  · unfold MyVec.eqVec
    rw [hAs it1, hAs it2, my_eqbSlice_map_some]
  · unfold MyVec.pcmpVec
    rw [hAs it1, hAs it2, my_pcmpSlice_map_some]

/-- C8: the invariant `len ≤ capacity` holds in the empty state and is
preserved by push, pop, reserve and extend, and holds for every container
built from a sequence. -/
theorem len_le_capacity_invariant {T : Type} :
    ((MyVec.new : MyVec T).len ≤ (MyVec.new : MyVec T).capacity) ∧
    (∀ (v : MyVec T) (x : T), v.len ≤ v.capacity →
      (v.push x).len ≤ (v.push x).capacity) ∧
    (∀ v : MyVec T, v.len ≤ v.capacity → v.pop.2.len ≤ v.pop.2.capacity) ∧
    (∀ (v : MyVec T) (n : Nat), v.len ≤ v.capacity →
      (v.reserve n).len ≤ (v.reserve n).capacity) ∧
    (∀ (v : MyVec T) (it : MyIter T), v.len ≤ v.capacity →
      (v.extend it).len ≤ (v.extend it).capacity) ∧
    (∀ it : MyIter T, (MyVec.fromIter it).len ≤ (MyVec.fromIter it).capacity) :=
  ⟨Nat.le_refl 0, fun _ x h => my_inv_push x h, fun _ h => my_inv_pop h,
    fun _ n h => my_inv_reserve n h, fun _ it h => my_inv_extend it h,
    fun it => my_inv_extend it (Nat.le_refl 0)⟩

/-- Witness for C8: pushing onto the empty vector preserves the invariant. -/
theorem len_le_capacity_invariant_witness :
    ((MyVec.new : MyVec Nat).push 3).len ≤ ((MyVec.new : MyVec Nat).push 3).capacity :=
  (@len_le_capacity_invariant Nat).2.1 MyVec.new 3 (Nat.le_refl 0)

/-- C9: pop never changes the capacity or the backing buffer; on an empty
vector it returns `none` and changes nothing; on a non-empty vector it only
decrements the length and returns the slot at the new length (elements below
it are untouched since the buffer is unchanged); on a vector representing
`l ++ [x]` it returns `x` and the result represents `l`. -/
theorem pop_frame {T : Type} (v : MyVec T) :
    v.pop.2.capacity = v.capacity ∧
    v.pop.2.mem = v.mem ∧
    (v.len = 0 → v.pop = (none, v)) ∧
    (0 < v.len → v.pop.2.len = v.len - 1 ∧ v.pop.1 = v.mem (v.len - 1)) ∧
    (∀ (l : List T) (x : T), Represents v (l ++ [x]) →
      v.pop.1 = some x ∧ Represents v.pop.2 l) := by
  refine ⟨my_pop_capacity v, my_pop_mem v, ?_, ?_, ?_⟩
  · intro h
    unfold MyVec.pop
    rw [if_pos h]
  · intro h
    have hne : ¬ v.len = 0 := by omega
    unfold MyVec.pop
    rw [if_neg hne]
    exact ⟨rfl, rfl⟩
  · intro l x hx
    obtain ⟨hpop, hrep⟩ := my_pop_last hx
    exact ⟨by rw [hpop], hrep⟩

/-- Witness for C9: popping the empty vector returns `none` and changes
nothing. -/
theorem pop_frame_witness : (MyVec.new : MyVec Nat).pop = (none, MyVec.new) :=
  (pop_frame (MyVec.new : MyVec Nat)).2.2.1 rfl

/-- C10: default-construction is exactly empty-construction: the same state,
with length 0, capacity 0, no initialized slot, and a slice view equal to the
empty sequence. -/
theorem default_is_new {T : Type} (eqb : T → T → Bool) :
    (MyVec.default : MyVec T) = MyVec.new ∧
    (MyVec.default : MyVec T).len = 0 ∧
    (MyVec.default : MyVec T).capacity = 0 ∧
    (MyVec.default : MyVec T).asRef = [] ∧
    MyVec.eqList eqb (MyVec.default : MyVec T) [] = true ∧
    ∀ i, (MyVec.default : MyVec T).mem i = none :=
  ⟨rfl, rfl, rfl, rfl, rfl, fun _ => rfl⟩
